import Mathlib

/-!
Verification of the personal expense tracker (src/月账单.py).

The embedding models the core of the program: the category keyword table and
`categorize_description`, the ledger (a period-key → category → record-list
mapping, kept as an insertion-ordered association list, matching Python's
ordered dicts), `add_expense` with two-digit-year normalization and strptime
date validation, `parse_input` (the regular expression
`(\d{2,4}/\d{1,2}/\d{1,2})，(.+)-(\d+\.?\d*)` applied with `re.match`, i.e.
anchored at the start of the line only), `get_monthly_summary`, the
period-over-period comparison of `generate_monthly_report`, and the yearly
trend classification of `generate_yearly_report`.

Idealizations: Python floats are modelled as rationals; `str.lower` and the
digit class are modelled on the ASCII range (`Char.toLower`, `Char.isDigit`);
the one-decimal rounding of the percentage display is modelled by `round1`.
JSON serialization is modelled structurally: `save_data` is the
defaultdict-to-plain-dict conversion of the nested mapping, and `load_data`
is the merge loop that extends `expenses[month][category]` entry by entry.
-/

namespace ET

/-- Digit test used by the regular expressions, on the ASCII range. -/
def isDig (c : Char) : Bool := c.isDigit

/-- Does the first list occur at the head of the second (needle, haystack)? -/
def starts : List Char → List Char → Bool
  | [], _ => true
  | _ :: _, [] => false
  | n :: ns, h :: hs => n == h && starts ns hs

/-- Python's substring test `needle in haystack` on character lists. -/
def hasSub (needle : List Char) : List Char → Bool
  | [] => needle.isEmpty
  | c :: hs => starts needle (c :: hs) || hasSub needle hs

/-- Lower-casing of a character list, as `str.lower` on the ASCII range. -/
def lowerL (l : List Char) : List Char := l.map Char.toLower

/-- The keyword list of the category 吃饭 (dining). -/
def kwFood : List String :=
  ["饭", "餐", "食", "面", "火锅", "烧烤", "小吃", "菜", "米", "奶茶",
   "饮料", "水果", "早餐", "午餐", "晚餐", "夜宵", "零食", "外卖",
   "堂食", "快餐", "麦当劳", "肯德基"]

/-- The keyword list of the category 娱乐 (entertainment). -/
def kwFun : List String :=
  ["电影", "游戏", "ktv", "唱歌", "电玩", "网吧", "电竞", "演唱会",
   "音乐会", "剧场", "展览", "博物馆", "健身", "运动", "旅游", "景点",
   "门票", "电视会员", "视频会员"]

/-- The keyword list of the category 交通 (transport). -/
def kwTransport : List String :=
  ["地铁", "公交", "出租", "打车", "单车", "共享单车", "加油", "停车",
   "高铁", "火车", "飞机", "机票", "车票"]

/-- The keyword list of the category 购物 (shopping). -/
def kwShopping : List String :=
  ["衣服", "裤子", "鞋", "包", "化妆品", "护肤品", "电子产品", "手机",
   "电脑", "数码", "家具", "日用品", "超市"]

/-- The fixed category keyword table of the tracker, in declaration order.
The last category 其他 has no keywords and is the default. -/
def category_keywords : List (String × List String) :=
  [("吃饭", kwFood), ("娱乐", kwFun), ("交通", kwTransport), ("购物", kwShopping),
   ("其他", [])]

/-- The declared category names, in declaration order. -/
def categoryNames : List String := category_keywords.map Prod.fst

/-- Does any keyword of the list occur (lower-cased) in the description? -/
def kwMatch (d : List Char) (kws : List String) : Bool :=
  kws.any (fun k => hasSub (lowerL k.data) d)

/-- The first-match loop of `categorize_description` over a keyword table. -/
def categorizeFrom : List (String × List String) → List Char → String
  | [], _ => "其他"
  | (c, kws) :: rest, d => if kwMatch d kws then c else categorizeFrom rest d

/-- `categorize_description`: lower-case the description, then return the
first category (in declaration order) one of whose keywords is a substring;
falls back to 其他. -/
def categorize_description (description : String) : String :=
  categorizeFrom category_keywords (lowerL description.data)

/-- One stored expense record, as the dict built in `add_expense`. -/
structure ExpenseRecord where
  date : String
  description : String
  amount : ℚ
  category : String
deriving DecidableEq

/-- The per-period category map: category name → record list, in insertion
order. -/
abbrev Cats := List (String × List ExpenseRecord)

/-- The ledger `self.expenses`: period key → category map, in insertion
order. -/
abbrev Ledger := List (String × Cats)

/-- `expenses[month][category].extend(rs)` on the inner category map, with
defaultdict auto-vivification: a missing category key is created at the end. -/
def extendCats : Cats → String → List ExpenseRecord → Cats
  | [], c, rs => [(c, rs)]
  | (c', lst) :: rest, c, rs =>
    if c' = c then (c', lst ++ rs) :: rest else (c', lst) :: extendCats rest c rs

/-- `expenses[month][category].extend(rs)` on the ledger, with defaultdict
auto-vivification: a missing month key is created at the end. -/
def extendAt : Ledger → String → String → List ExpenseRecord → Ledger
  | [], m, c, rs => [(m, [(c, rs)])]
  | (m', cats) :: rest, m, c, rs =>
    if m' = m then (m', extendCats cats c rs) :: rest
    else (m', cats) :: extendAt rest m c rs

/-- `self.expenses.get(mk)` (no default, no vivification). -/
def lookupMonth : Ledger → String → Option Cats
  | [], _ => none
  | (m, cats) :: rest, mk => if m = mk then some cats else lookupMonth rest mk

/-- `monthly_data.get(ck)` (no default, no vivification). -/
def lookupCat : Cats → String → Option (List ExpenseRecord)
  | [], _ => none
  | (c, rs) :: rest, ck => if c = ck then some rs else lookupCat rest ck

/-- `sum(expense['amount'] for expense in monthly_data.get(category, []))`. -/
def catTotal (cats : Cats) (c : String) : ℚ :=
  (((lookupCat cats c).getD []).map (fun r => r.amount)).sum

/-- `get_monthly_summary`: for each declared category in declaration order,
its summed amount for the period, together with the running grand total. -/
def get_monthly_summary (l : Ledger) (mk : String) : List (String × ℚ) × ℚ :=
  categoryNames.foldl
    (fun acc c =>
      let ct := catTotal ((lookupMonth l mk).getD []) c
      (acc.1 ++ [(c, ct)], acc.2 + ct))
    ([], 0)

/-- Natural number denoted by a digit string. -/
def digitsToNat (l : List Char) : ℕ := l.foldl (fun a c => a * 10 + (c.toNat - 48)) 0

/-- Python's `str.split(sep)` for a one-character separator, on character
lists: splitting the empty string yields one empty field. -/
def splitOnChar (sep : Char) : List Char → List (List Char)
  | [] => [[]]
  | c :: rest =>
    if c = sep then [] :: splitOnChar sep rest
    else (c :: (splitOnChar sep rest).headD []) :: (splitOnChar sep rest).tail

/-- Gregorian leap year test, as `datetime` uses. -/
def leapYear (y : ℕ) : Bool := y % 4 == 0 && (y % 100 != 0 || y % 400 == 0)

/-- Days in a month, as `datetime` validates. -/
def daysInMonth (y m : ℕ) : ℕ :=
  if m == 2 then (if leapYear y then 29 else 28)
  else if m == 4 || m == 6 || m == 9 || m == 11 then 30 else 31

/-- A parsed calendar date. -/
structure PDate where
  year : ℕ
  month : ℕ
  day : ℕ
deriving DecidableEq

/-- `datetime.datetime.strptime(s, '%Y/%m/%d')`: exactly four year digits,
one or two month digits with value 1..12, one or two day digits with value
within the month, matching the whole string. -/
def parseDate (s : String) : Option PDate :=
  match splitOnChar '/' s.data with
  | [ys, ms, ds] =>
    if ys.all isDig && ms.all isDig && ds.all isDig
        && ys.length == 4
        && decide (1 ≤ ms.length) && decide (ms.length ≤ 2)
        && decide (1 ≤ ds.length) && decide (ds.length ≤ 2) then
      if decide (1 ≤ digitsToNat ms) && decide (digitsToNat ms ≤ 12)
          && decide (1 ≤ digitsToNat ds)
          && decide (digitsToNat ds ≤ daysInMonth (digitsToNat ys) (digitsToNat ms)) then
        some ⟨digitsToNat ys, digitsToNat ms, digitsToNat ds⟩
      else none
    else none
  | _ => none

/-- Two-digit zero padding, as the format `{:02d}` on values below 100. -/
def pad2 (n : ℕ) : String := if n < 10 then "0" ++ toString n else toString n

/-- The period key `f"{date.year}-{date.month:02d}"`. -/
def monthKey (d : PDate) : String := toString d.year ++ "-" ++ pad2 d.month

/-- Year normalization in `add_expense`: a two-digit first `/`-component gets
the prefix `20`. -/
def normalizeDateStr (s : String) : String :=
  if ((splitOnChar '/' s.data).headD []).length = 2 then "20" ++ s else s

/-- `add_expense`: normalize the year, parse the date, classify when no
category is supplied, and append the record under the period and category
keys.  `none` is the `return False` branch (date rejected, ledger
untouched). -/
def add_expense (l : Ledger) (date_str description : String) (amount : ℚ)
    (category : Option String) : Option Ledger :=
  let ds := normalizeDateStr date_str
  match parseDate ds with
  | none => none
  | some d =>
    let mk := monthKey d
    let cat := category.getD (categorize_description description)
    some (extendAt l mk cat [⟨ds, description, amount, cat⟩])

/-- `save_data`: the defaultdict is converted to a plain nested dict, key
order and values preserved, and written out; JSON round-trips the structure
exactly, so the file contents are this structure. -/
def save_data (l : Ledger) : Ledger :=
  l.map (fun mc => (mc.1, mc.2.map (fun cr => (cr.1, cr.2))))

/-- Inner loop of `load_data`: extend each category list of one month into
the accumulating ledger. -/
def loadCats : Ledger → String → Cats → Ledger
  | acc, _, [] => acc
  | acc, m, (c, rs) :: rest => loadCats (extendAt acc m c rs) m rest

/-- `load_data`: merge the file contents into the ledger, month by month and
category by category, extending existing lists. -/
def load_data : Ledger → Ledger → Ledger
  | acc, [] => acc
  | acc, (m, cats) :: rest => load_data (loadCats acc m cats) rest

/-- One period-over-period entry: the no-prior-data sentinel 无上月数据, or a
percentage. -/
inductive Change where
  | noPrior : Change
  | pct : ℚ → Change
deriving DecidableEq

/-- Rounding to one decimal place, as the `:.1f` display. -/
def round1 (q : ℚ) : ℚ := ((round (q * 10) : ℤ) : ℚ) / 10

/-- The per-category branch of the period-over-period comparison. -/
def categoryChange (current previous : ℚ) : Change :=
  if previous = 0 then Change.noPrior
  else Change.pct (round1 ((current - previous) / previous * 100))

/-- The period key `f"{y}-{m:02d}"` from numeric components. -/
def fmtKey (y m : ℕ) : String := toString y ++ "-" ++ pad2 m

/-- The previous period computed by `generate_monthly_report`:
`f"{year}-{month - 1:02d}"` for month above 1, else `f"{year - 1}-12"`. -/
def prevKey (y m : ℕ) : String :=
  if 1 < m then fmtKey y (m - 1) else toString (y - 1) ++ "-12"

/-- `category_totals.get(category, 0)`. -/
def lookupQ : List (String × ℚ) → String → ℚ
  | [], _ => 0
  | (c, q) :: rest, ck => if c = ck then q else lookupQ rest ck

/-- The period-over-period table of `generate_monthly_report` for the month
`y`-`m`: one `Change` per declared category. -/
def monthlyChanges (l : Ledger) (y m : ℕ) : List (String × Change) :=
  categoryNames.map (fun c =>
    (c, categoryChange (lookupQ (get_monthly_summary l (fmtKey y m)).1 c)
                       (lookupQ (get_monthly_summary l (prevKey y m)).1 c)))

/-- The twelve monthly totals computed by `generate_yearly_report` (the
`year` argument is the raw four-digit string typed by the user). -/
def monthlyTotals (l : Ledger) (year : String) : List ℚ :=
  (List.range 12).map (fun i => (get_monthly_summary l (year ++ "-" ++ pad2 (i + 1))).2)

/-- The three trend labels printed by `generate_yearly_report`. -/
inductive Trend where
  | rising : Trend
  | falling : Trend
  | stable : Trend
deriving DecidableEq

/-- The `trend` variable of `generate_yearly_report`:
`(monthly_totals[-1] - monthly_totals[0]) / monthly_totals[0]` when January
is nonzero, else 0. -/
def trendRatio (l : Ledger) (year : String) : ℚ :=
  if (monthlyTotals l year).getD 0 0 ≠ 0 then
    ((monthlyTotals l year).getD 11 0 - (monthlyTotals l year).getD 0 0)
      / (monthlyTotals l year).getD 0 0
  else 0

/-- The trend classification of `generate_yearly_report`: `none` is the
no-data early return; otherwise the ratio is compared with ±0.1. -/
def yearlyTrend (l : Ledger) (year : String) : Option Trend :=
  if (monthlyTotals l year).sum = 0 then none
  else
    some (if trendRatio l year > 1 / 10 then Trend.rising
          else if trendRatio l year < -(1 / 10) then Trend.falling
          else Trend.stable)

/-- Candidate split of the text after the date: position `i` can serve as the
`-` between `(.+)` and `(\d+\.?\d*)` exactly when `i ≥ 1`, the character
there is `-`, a digit follows, and no newline precedes (`.` does not match a
newline). -/
def okSplit (body : List Char) (i : ℕ) : Bool :=
  decide (1 ≤ i) && (body.getD i ' ' == '-') && isDig (body.getD (i + 1) ' ')
    && (body.take i).all (fun c => c != '\n')

/-- The split the backtracking greedy `(.+)` settles on: the last candidate
position. -/
def splitIdx (body : List Char) : Option ℕ :=
  ((List.range body.length).filter (okSplit body)).getLast?

/-- `float` on the token captured by `(\d+\.?\d*)`: integer digits, then an
optional point and fraction digits. -/
def amountVal (l : List Char) : ℚ :=
  let ip := l.takeWhile isDig
  let rest := l.dropWhile isDig
  let fp := match rest with
    | '.' :: r2 => r2.takeWhile isDig
    | _ => []
  (digitsToNat ip : ℚ) + (digitsToNat fp : ℚ) / (10 : ℚ) ^ fp.length

/-- One numeric field of the date part: greedily take the digits, require
between `lo` and `hi` of them, and require the separator right after. -/
def scanNum (cs : List Char) (lo hi : ℕ) (sep : Char) : Option (List Char × List Char) :=
  match cs.dropWhile isDig with
  | [] => none
  | c :: rest =>
    if c == sep && decide (lo ≤ (cs.takeWhile isDig).length)
        && decide ((cs.takeWhile isDig).length ≤ hi) then
      some (cs.takeWhile isDig, rest)
    else none

/-- `parse_input`: `re.match` of
`(\d{2,4}/\d{1,2}/\d{1,2})，(.+)-(\d+\.?\d*)` against the line (anchored at
the start only), returning the date text, the description, the amount and the
constant `None` category of the source's 4-tuple. -/
def parse_input (s : String) : Option (String × String × ℚ × Option String) :=
  (scanNum s.data 2 4 '/').bind (fun yp =>
    (scanNum yp.2 1 2 '/').bind (fun mp =>
      (scanNum mp.2 1 2 '，').bind (fun dp =>
        (splitIdx dp.2).map (fun i =>
          (String.mk (yp.1 ++ '/' :: (mp.1 ++ '/' :: dp.1)), String.mk (dp.2.take i),
           amountVal (dp.2.drop (i + 1)), none)))))

/-- Spec-side: a full numeric token `\d+\.?\d*` covering the whole list. -/
def numToken (l : List Char) : Bool :=
  !(l.takeWhile isDig).isEmpty &&
    (match l.dropWhile isDig with
     | [] => true
     | '.' :: r2 => r2.all isDig
     | _ => false)

/-- Spec-side: position of the last `-` of the line. -/
def lastDash (l : List Char) : Option ℕ :=
  ((List.range l.length).filter (fun i => l.getD i ' ' == '-')).getLast?

/-- Spec-side: consume `<date>，` and return the remaining text. -/
def dateComma (l : List Char) : Option (List Char) :=
  match scanNum l 2 4 '/' with
  | none => none
  | some (_, r1) =>
    match scanNum r1 1 2 '/' with
    | none => none
    | some (_, r2) =>
      match scanNum r2 1 2 '，' with
      | none => none
      | some (_, body) => some body

/-- Modelled from the claim's words, for comparison with `parse_input`: the
line decomposes as `<date>，<description>-<amount>` where the separating `-`
is the last `-` of the line, the description is non-empty, and the amount is
a numeric token reaching the end of the line. -/
def claimFormat (s : String) : Bool :=
  match lastDash s.data with
  | none => false
  | some i =>
    numToken (s.data.drop (i + 1)) &&
      (match dateComma (s.data.take i) with
       | some desc => !desc.isEmpty
       | none => false)

/-- Modelled from the amended claim's words: the line begins with
`<date>，<description>-<amount>`, where the `-` is followed by a digit, the
description is non-empty and newline-free, and text after the amount token is
permitted. -/
def RelaxedFormat (s : String) : Prop :=
  ∃ y mo d body i,
    s.data = y ++ '/' :: (mo ++ '/' :: (d ++ '，' :: body)) ∧
    y.all isDig = true ∧ 2 ≤ y.length ∧ y.length ≤ 4 ∧
    mo.all isDig = true ∧ 1 ≤ mo.length ∧ mo.length ≤ 2 ∧
    d.all isDig = true ∧ 1 ≤ d.length ∧ d.length ≤ 2 ∧
    1 ≤ i ∧ body.getD i ' ' = '-' ∧ isDig (body.getD (i + 1) ' ') = true ∧
    ∀ c ∈ body.take i, c ≠ '\n'

/-- One record is stored consistently under the keys `mk` and `c`: its date
parses and its year-month key is `mk`, and its category field is `c`. -/
def recordOK (mk c : String) (r : ExpenseRecord) : Bool :=
  (match parseDate r.date with
   | some d => monthKey d == mk
   | none => false) && r.category == c

/-- The ledger invariant: every stored record is consistent with the period
and category keys it sits under. -/
def ledgerInv (l : Ledger) : Bool :=
  l.all (fun p => p.2.all (fun q => q.2.all (recordOK p.1 q.1)))

/-- A January 2024 record of 100 yuan. -/
def recJan : ExpenseRecord := ⟨"2024/01/05", "房租", 100, "其他"⟩

/-- A December 2024 record of 130 yuan. -/
def recDec : ExpenseRecord := ⟨"2024/12/05", "礼物", 130, "其他"⟩

/-- A ledger whose 2024 monthly totals are 100 in January and 0 elsewhere. -/
def L100 : Ledger := [("2024-01", [("其他", [recJan])])]

/-- A ledger whose 2024 monthly totals are 100 in January, 130 in December
and 0 elsewhere. -/
def LRise : Ledger := [("2024-01", [("其他", [recJan])]), ("2024-12", [("其他", [recDec])])]

/-- A non-empty ledger holding one period whose category mapping is empty. -/
def Lbad : Ledger := [("2023-01", []), ("2024-01", [("其他", [recJan])])]

/-- Evaluation of the zero padding on the twelve month numbers. -/
theorem pad2_01 : pad2 1 = "01" := rfl

/-- Evaluation of the zero padding. -/
theorem pad2_02 : pad2 2 = "02" := rfl

/-- Evaluation of the zero padding. -/
theorem pad2_03 : pad2 3 = "03" := rfl

/-- Evaluation of the zero padding. -/
theorem pad2_04 : pad2 4 = "04" := rfl

/-- Evaluation of the zero padding. -/
theorem pad2_05 : pad2 5 = "05" := rfl

/-- Evaluation of the zero padding. -/
theorem pad2_06 : pad2 6 = "06" := rfl

/-- Evaluation of the zero padding. -/
theorem pad2_07 : pad2 7 = "07" := rfl

/-- Evaluation of the zero padding. -/
theorem pad2_08 : pad2 8 = "08" := rfl

/-- Evaluation of the zero padding. -/
theorem pad2_09 : pad2 9 = "09" := rfl

/-- Evaluation of the zero padding. -/
theorem pad2_10 : pad2 10 = "10" := rfl

/-- Evaluation of the zero padding. -/
theorem pad2_11 : pad2 11 = "11" := rfl

/-- Evaluation of the zero padding. -/
theorem pad2_12 : pad2 12 = "12" := rfl

/-- The 2024 monthly totals of the ledger `L100`. -/
theorem mt_L100 : monthlyTotals L100 "2024" = [100, 0, 0, 0, 0, 0, 0, 0, 0, 0, 0, 0] := by
  norm_num +decide [monthlyTotals, List.range_succ, get_monthly_summary, categoryNames,
    category_keywords, catTotal, lookupMonth, lookupCat, L100, recJan,
    pad2_01, pad2_02, pad2_03, pad2_04, pad2_05, pad2_06, pad2_07, pad2_08, pad2_09,
    pad2_10, pad2_11, pad2_12]

/-- The 2024 monthly totals of the ledger `LRise`. -/
theorem mt_LRise : monthlyTotals LRise "2024" = [100, 0, 0, 0, 0, 0, 0, 0, 0, 0, 0, 130] := by
  norm_num +decide [monthlyTotals, List.range_succ, get_monthly_summary, categoryNames,
    category_keywords, catTotal, lookupMonth, lookupCat, LRise, recJan, recDec,
    pad2_01, pad2_02, pad2_03, pad2_04, pad2_05, pad2_06, pad2_07, pad2_08, pad2_09,
    pad2_10, pad2_11, pad2_12]

/-- Helper: the running total maintained by the summary loop always equals
the sum of the per-category totals recorded so far. -/
theorem foldl_pair_sum (f : String → ℚ) :
    ∀ (L : List String) (acc : List (String × ℚ)) (t : ℚ),
      t = (acc.map Prod.snd).sum →
      (L.foldl (fun a c => (a.1 ++ [(c, f c)], a.2 + f c)) (acc, t)).2
        = ((L.foldl (fun a c => (a.1 ++ [(c, f c)], a.2 + f c)) (acc, t)).1.map Prod.snd).sum := by
  intro L
  induction L with
  | nil => intro acc t h; simpa using h
  | cons c L ih =>
    intro acc t h
    simp only [List.foldl_cons]
    exact ih (acc ++ [(c, f c)]) (t + f c) (by simp [h])

/-- Claim C5: the grand total returned by `get_monthly_summary` equals the
sum of the per-category totals it returns, and a period key absent from the
ledger yields a 0 total for every declared category and an overall total
of 0. -/
theorem monthly_summary_conservation (l : Ledger) (mk : String) :
    (get_monthly_summary l mk).2 = ((get_monthly_summary l mk).1.map Prod.snd).sum ∧
    (lookupMonth l mk = none →
      get_monthly_summary l mk = (categoryNames.map (fun c => (c, 0)), 0)) := by
  constructor
  · exact foldl_pair_sum (fun c => catTotal ((lookupMonth l mk).getD []) c)
      categoryNames [] 0 (by simp)
  · intro h
    simp only [get_monthly_summary, h, Option.getD_none]
    simp [categoryNames, category_keywords, catTotal, lookupCat]

/-- Witness for C5 at a concrete ledger and absent period key. -/
theorem monthly_summary_conservation_w :
    lookupMonth L100 "1999-07" = none ∧
    get_monthly_summary L100 "1999-07" = (categoryNames.map (fun c => (c, 0)), 0) :=
  ⟨by decide, (monthly_summary_conservation L100 "1999-07").2 (by decide)⟩

/-- Claim C2: with a nonzero yearly total, the trend label is rising exactly
when the ratio exceeds 0.10, falling exactly when it is below −0.10, stable
otherwise; a zero January total forces ratio 0 and hence a stable label. -/
theorem yearly_trend_spec (l : Ledger) (year : String)
    (h : (monthlyTotals l year).sum ≠ 0) :
    (yearlyTrend l year = some Trend.rising ↔ 1 / 10 < trendRatio l year) ∧
    (yearlyTrend l year = some Trend.falling ↔ trendRatio l year < -(1 / 10)) ∧
    (yearlyTrend l year = some Trend.stable ↔
      -(1 / 10) ≤ trendRatio l year ∧ trendRatio l year ≤ 1 / 10) ∧
    ((monthlyTotals l year).getD 0 0 = 0 → yearlyTrend l year = some Trend.stable) := by
  have hy : yearlyTrend l year
      = some (if trendRatio l year > 1 / 10 then Trend.rising
              else if trendRatio l year < -(1 / 10) then Trend.falling
              else Trend.stable) := by
    unfold yearlyTrend
    rw [if_neg h]
  refine ⟨?_, ?_, ?_, ?_⟩
  · rw [hy]
    split_ifs with h1 h2 <;> simpa using h1
  · rw [hy]
    split_ifs with h1 h2
    · simp only [Option.some.injEq]
      constructor
      · intro hc
        exact absurd hc (by decide)
      · intro hc
        exfalso
        linarith
    · simpa using h2
    · simpa using h2
  · rw [hy]
    split_ifs with h1 h2
    · simp only [Option.some.injEq]
      constructor
      · intro hc
        exact absurd hc (by decide)
      · intro hc
        exfalso
        linarith [hc.2]
    · simp only [Option.some.injEq]
      constructor
      · intro hc
        exact absurd hc (by decide)
      · intro hc
        exfalso
        linarith [hc.1]
    · simp only [Option.some.injEq, true_iff]
      push_neg at h1 h2
      exact ⟨by linarith, by linarith⟩
  · intro hj
    have hr : trendRatio l year = 0 := by
      unfold trendRatio
      rw [if_neg (not_not_intro hj)]
    rw [hy, hr]
    norm_num

/-- Witness for C2 at a concrete ledger: January 100, December 0 gives ratio
−1 and the falling label. -/
theorem yearly_trend_spec_w :
    (monthlyTotals L100 "2024").sum ≠ 0 ∧
    yearlyTrend L100 "2024" = some Trend.falling :=
  ⟨by rw [mt_L100]; norm_num,
   (yearly_trend_spec L100 "2024" (by rw [mt_L100]; norm_num)).2.1.mpr
     (by norm_num [trendRatio, mt_L100, List.getD])⟩

/-- Counterexample to claim C1: for the yearly totals [100,0,...,0] the code
classifies the trend as falling (ratio (0−100)/100 = −1 < −0.10), so falling
is not impossible there. -/
theorem scenarioD_cex :
    monthlyTotals L100 "2024" = [100, 0, 0, 0, 0, 0, 0, 0, 0, 0, 0, 0] ∧
    yearlyTrend L100 "2024" = some Trend.falling := by
  refine ⟨mt_L100, ?_⟩
  norm_num [yearlyTrend, trendRatio, mt_L100, List.getD]

/-- Claim C1 as amended: for yearly totals [100,0,...,0] the trend label is
falling, and for January 100, December 130 (ratio 0.30) it is rising. -/
theorem scenarioD_amended :
    (monthlyTotals L100 "2024" = [100, 0, 0, 0, 0, 0, 0, 0, 0, 0, 0, 0] ∧
      yearlyTrend L100 "2024" = some Trend.falling) ∧
    (monthlyTotals LRise "2024" = [100, 0, 0, 0, 0, 0, 0, 0, 0, 0, 0, 130] ∧
      yearlyTrend LRise "2024" = some Trend.rising) := by
  refine ⟨⟨mt_L100, ?_⟩, mt_LRise, ?_⟩
  · norm_num [yearlyTrend, trendRatio, mt_L100, List.getD]
  · norm_num [yearlyTrend, trendRatio, mt_LRise, List.getD]

/-- The first-match loop equals `List.find?` over the table: the first entry
whose keywords match wins, and the default 其他 is returned when none does. -/
theorem categorizeFrom_eq_find? (dl : List Char) :
    ∀ L : List (String × List String),
      categorizeFrom L dl = (L.find? (fun p => kwMatch dl p.2)).elim "其他" Prod.fst := by
  intro L
  induction L with
  | nil => rfl
  | cons p rest ih =>
    obtain ⟨c, kws⟩ := p
    by_cases h : kwMatch dl kws = true
    · rw [categorizeFrom, if_pos h, List.find?_cons_of_pos rest h]
      rfl
    · rw [categorizeFrom, if_neg h, List.find?_cons_of_neg rest h, ih]

/-- Claim C3: `categorize_description` returns exactly the first declared
category one of whose keywords occurs in the lower-cased description
(`List.find?` over the table in declaration order), so of two matching
categories the earlier-declared one wins; it always returns a declared
category, and with no keyword match it returns the default 其他. -/
theorem categorize_first_match (d : String) :
    categorize_description d
      = (category_keywords.find? (fun p => kwMatch (lowerL d.data) p.2)).elim "其他" Prod.fst ∧
    categorize_description d ∈ categoryNames ∧
    ((∀ p ∈ category_keywords, kwMatch (lowerL d.data) p.2 = false) →
      categorize_description d = "其他") ∧
    (∀ p ∈ category_keywords, kwMatch (lowerL d.data) p.2 = true →
      categoryNames.indexOf (categorize_description d) ≤ categoryNames.indexOf p.1) := by
  have e : categorize_description d =
      (if kwMatch (lowerL d.data) kwFood then "吃饭"
       else if kwMatch (lowerL d.data) kwFun then "娱乐"
       else if kwMatch (lowerL d.data) kwTransport then "交通"
       else if kwMatch (lowerL d.data) kwShopping then "购物"
       else if kwMatch (lowerL d.data) [] then "其他"
       else "其他") := rfl
  refine ⟨categorizeFrom_eq_find? (lowerL d.data) category_keywords, ?_, ?_, ?_⟩
  · rw [e]
    split_ifs <;> decide
  · intro hall
    have a1 : kwMatch (lowerL d.data) kwFood = false :=
      hall ("吃饭", kwFood) (by simp [category_keywords])
    have a2 : kwMatch (lowerL d.data) kwFun = false :=
      hall ("娱乐", kwFun) (by simp [category_keywords])
    have a3 : kwMatch (lowerL d.data) kwTransport = false :=
      hall ("交通", kwTransport) (by simp [category_keywords])
    have a4 : kwMatch (lowerL d.data) kwShopping = false :=
      hall ("购物", kwShopping) (by simp [category_keywords])
    rw [e]
    simp [a1, a2, a3, a4]
  · intro p hp hm
    simp only [category_keywords, List.mem_cons, List.not_mem_nil, or_false] at hp
    rcases hp with rfl | rfl | rfl | rfl | rfl
    · have hm' : kwMatch (lowerL d.data) kwFood = true := hm
      rw [e]
      split_ifs
      decide
    · have hm' : kwMatch (lowerL d.data) kwFun = true := hm
      rw [e]
      split_ifs <;> decide
    · have hm' : kwMatch (lowerL d.data) kwTransport = true := hm
      rw [e]
      split_ifs <;> decide
    · have hm' : kwMatch (lowerL d.data) kwShopping = true := hm
      rw [e]
      split_ifs <;> decide
    · have hm' : kwMatch (lowerL d.data) [] = true := hm
      exact absurd hm' (by simp [kwMatch])

/-- Witness for C3: a description containing no declared keyword is assigned
the default category, and the description 地铁 is assigned exactly the
category 交通, the first declared category with a matching keyword. -/
theorem categorize_first_match_w :
    categorize_description "xyz" = "其他" ∧
    categorize_description "地铁" = "交通" :=
  ⟨(categorize_first_match "xyz").2.2.1 (by decide),
   by rw [(categorize_first_match "地铁").1]; rfl⟩

/-- The per-category totals of `L100` for January 2024. -/
theorem gms_L100_jan : get_monthly_summary L100 "2024-01"
    = ([("吃饭", 0), ("娱乐", 0), ("交通", 0), ("购物", 0), ("其他", 100)], 100) := by
  norm_num +decide [get_monthly_summary, categoryNames, category_keywords, catTotal,
    lookupMonth, lookupCat, L100, recJan]

/-- Claim C4: the period-over-period table holds the no-prior-data sentinel
for a category exactly when its previous-month total is 0, and otherwise the
rounded percentage `(current - previous) / previous * 100`; the previous
period of month m of year y is y-(m−1), wrapping to (y−1)-12 for January. -/
theorem period_over_period_spec (l : Ledger) (y m : ℕ) (c : String)
    (hc : c ∈ categoryNames) :
    (lookupQ (get_monthly_summary l (prevKey y m)).1 c = 0 →
      (c, Change.noPrior) ∈ monthlyChanges l y m) ∧
    (lookupQ (get_monthly_summary l (prevKey y m)).1 c ≠ 0 →
      (c, Change.pct (round1 ((lookupQ (get_monthly_summary l (fmtKey y m)).1 c
          - lookupQ (get_monthly_summary l (prevKey y m)).1 c)
          / lookupQ (get_monthly_summary l (prevKey y m)).1 c * 100)))
        ∈ monthlyChanges l y m) ∧
    prevKey y 1 = toString (y - 1) ++ "-12" ∧
    (1 < m → prevKey y m = fmtKey y (m - 1)) := by
  have hmem := List.mem_map_of_mem
    (fun c => (c, categoryChange (lookupQ (get_monthly_summary l (fmtKey y m)).1 c)
                    (lookupQ (get_monthly_summary l (prevKey y m)).1 c))) hc
  refine ⟨?_, ?_, ?_, ?_⟩
  · intro h0
    simpa [monthlyChanges, categoryChange, h0] using hmem
  · intro hne
    simpa [monthlyChanges, categoryChange, hne] using hmem
  · simp [prevKey]
  · intro hm
    simp [prevKey, hm]

/-- Witness for C4: in `L100` the category 其他 had 100 in January 2024 and 0
in February 2024, so the February report shows its rounded percentage. -/
theorem period_over_period_spec_w :
    ("其他", Change.pct (round1 ((lookupQ (get_monthly_summary L100 (fmtKey 2024 2)).1 "其他"
        - lookupQ (get_monthly_summary L100 (prevKey 2024 2)).1 "其他")
        / lookupQ (get_monthly_summary L100 (prevKey 2024 2)).1 "其他" * 100)))
      ∈ monthlyChanges L100 2024 2 :=
  (period_over_period_spec L100 2024 2 "其他" (by decide)).2.1
    (by norm_num +decide [show prevKey 2024 2 = "2024-01" from rfl, gms_L100_jan, lookupQ,
      get_monthly_summary, categoryNames, category_keywords, catTotal, lookupMonth,
      lookupCat, L100, recJan])

/-- Claim C7: a date string whose year component has two digits is completed
with the prefix 20 before parsing, and the line 24/02/14，地铁-5 parses and
is stored with period 2024-02, amount 5 and category 交通 via the keyword
地铁. -/
theorem two_digit_year_normalized :
    (∀ s : String, ((splitOnChar '/' s.data).headD []).length = 2 →
      normalizeDateStr s = "20" ++ s) ∧
    parse_input "24/02/14，地铁-5" = some ("24/02/14", "地铁", 5, none) ∧
    add_expense [] "24/02/14" "地铁" 5 none =
      some [("2024-02", [("交通", [⟨"2024/02/14", "地铁", 5, "交通"⟩])])] := by
  refine ⟨?_, ?_, ?_⟩
  · intro s h
    unfold normalizeDateStr
    rw [if_pos h]
  · rw [show parse_input "24/02/14，地铁-5"
        = some ("24/02/14", "地铁", amountVal ['5'], none) from rfl]
    norm_num [show amountVal ['5']
        = ((5 : ℕ) : ℚ) + ((0 : ℕ) : ℚ) / (10 : ℚ) ^ (0 : ℕ) from rfl]
  · rw [show add_expense [] "24/02/14" "地铁" 5 none
        = some [("2024-02", [("交通", [⟨"2024/02/14", "地铁", 5, "交通"⟩])])] from rfl]

/-- Witness for C7 at the concrete date string of scenario B. -/
theorem two_digit_year_normalized_w :
    normalizeDateStr "24/02/14" = "20" ++ "24/02/14" :=
  two_digit_year_normalized.1 "24/02/14" (by rfl)

/-- Counterexample to claim C6: the line 2024/1/1，a-5x does not have the
claimed form (its amount token is not at the end of the line), yet
`parse_input` accepts it with amount 5, because `re.match` is not anchored
at the end. -/
theorem parse_format_cex :
    claimFormat "2024/1/1，a-5x" = false ∧
    parse_input "2024/1/1，a-5x" = some ("2024/1/1", "a", 5, none) := by
  refine ⟨rfl, ?_⟩
  rw [show parse_input "2024/1/1，a-5x"
      = some ("2024/1/1", "a", amountVal ['5', 'x'], none) from rfl]
  norm_num [show amountVal ['5', 'x']
      = ((5 : ℕ) : ℚ) + ((0 : ℕ) : ℚ) / (10 : ℚ) ^ (0 : ℕ) from rfl]

/-- Bridge from the Bool ledger invariant to its quantifier form. -/
theorem ledgerInv_iff (l : Ledger) :
    ledgerInv l = true ↔ ∀ p ∈ l, ∀ q ∈ p.2, ∀ r ∈ q.2, recordOK p.1 q.1 r = true := by
  simp [ledgerInv, List.all_eq_true]

/-- Extending one category list preserves per-month record consistency. -/
theorem extendCats_ok (m c : String) (rs : List ExpenseRecord) :
    ∀ (cats : Cats),
      (∀ q ∈ cats, ∀ r ∈ q.2, recordOK m q.1 r = true) →
      (∀ r ∈ rs, recordOK m c r = true) →
      ∀ q ∈ extendCats cats c rs, ∀ r ∈ q.2, recordOK m q.1 r = true := by
  intro cats
  induction cats with
  | nil =>
    intro _ h2 q hq r hr
    simp only [extendCats, List.mem_singleton] at hq
    subst hq
    exact h2 r hr
  | cons p rest ih =>
    obtain ⟨c', lst⟩ := p
    intro h1 h2 q hq r hr
    by_cases hc : c' = c
    · rw [extendCats, if_pos hc] at hq
      rcases List.mem_cons.mp hq with rfl | hq'
      · rcases List.mem_append.mp hr with h | h
        · exact h1 (c', lst) (List.mem_cons_self _ _) r h
        · subst hc
          exact h2 r h
      · exact h1 q (List.mem_cons_of_mem _ hq') r hr
    · rw [extendCats, if_neg hc] at hq
      rcases List.mem_cons.mp hq with rfl | hq'
      · exact h1 (c', lst) (List.mem_cons_self _ _) r hr
      · exact ih (fun q' hq' => h1 q' (List.mem_cons_of_mem _ hq')) h2 q hq' r hr

/-- Extending one record list in the ledger preserves the invariant, when
the new records are consistent with the keys they go under. -/
theorem extendAt_ok (m c : String) (rs : List ExpenseRecord) :
    ∀ (l : Ledger),
      (∀ p ∈ l, ∀ q ∈ p.2, ∀ r ∈ q.2, recordOK p.1 q.1 r = true) →
      (∀ r ∈ rs, recordOK m c r = true) →
      ∀ p ∈ extendAt l m c rs, ∀ q ∈ p.2, ∀ r ∈ q.2, recordOK p.1 q.1 r = true := by
  intro l
  induction l with
  | nil =>
    intro _ h2 p hp q hq r hr
    simp only [extendAt, List.mem_singleton] at hp
    subst hp
    simp only [List.mem_singleton] at hq
    subst hq
    exact h2 r hr
  | cons e rest ih =>
    obtain ⟨m', cats⟩ := e
    intro h1 h2 p hp q hq r hr
    by_cases hm : m' = m
    · rw [extendAt, if_pos hm] at hp
      rcases List.mem_cons.mp hp with rfl | hp'
      · exact extendCats_ok m' c rs cats
          (fun q' hq' => h1 (m', cats) (List.mem_cons_self _ _) q' hq')
          (fun r' hr' => hm ▸ h2 r' hr') q hq r hr
      · exact h1 p (List.mem_cons_of_mem _ hp') q hq r hr
    · rw [extendAt, if_neg hm] at hp
      rcases List.mem_cons.mp hp with rfl | hp'
      · exact h1 (m', cats) (List.mem_cons_self _ _) q hq r hr
      · exact ih (fun p' hp' => h1 p' (List.mem_cons_of_mem _ hp')) h2 p hp' q hq r hr

/-- Merging one month's category map preserves the invariant. -/
theorem loadCats_ok (m : String) :
    ∀ (cats : Cats) (acc : Ledger),
      (∀ p ∈ acc, ∀ q ∈ p.2, ∀ r ∈ q.2, recordOK p.1 q.1 r = true) →
      (∀ q ∈ cats, ∀ r ∈ q.2, recordOK m q.1 r = true) →
      ∀ p ∈ loadCats acc m cats, ∀ q ∈ p.2, ∀ r ∈ q.2, recordOK p.1 q.1 r = true := by
  intro cats
  induction cats with
  | nil => intro acc h1 _; exact h1
  | cons e rest ih =>
    obtain ⟨c, rs⟩ := e
    intro acc h1 h2
    have hstep := extendAt_ok m c rs acc h1
      (fun r hr => h2 (c, rs) (List.mem_cons_self _ _) r hr)
    exact ih (extendAt acc m c rs) hstep
      (fun q hq => h2 q (List.mem_cons_of_mem _ hq))

/-- Merging an invariant-satisfying file into an invariant-satisfying ledger
preserves the invariant. -/
theorem load_data_ok :
    ∀ (f : Ledger) (acc : Ledger),
      (∀ p ∈ acc, ∀ q ∈ p.2, ∀ r ∈ q.2, recordOK p.1 q.1 r = true) →
      (∀ p ∈ f, ∀ q ∈ p.2, ∀ r ∈ q.2, recordOK p.1 q.1 r = true) →
      ∀ p ∈ load_data acc f, ∀ q ∈ p.2, ∀ r ∈ q.2, recordOK p.1 q.1 r = true := by
  intro f
  induction f with
  | nil => intro acc h1 _; exact h1
  | cons e rest ih =>
    obtain ⟨m, cats⟩ := e
    intro acc h1 h2
    have hstep := loadCats_ok m cats acc h1
      (fun q hq => h2 (m, cats) (List.mem_cons_self _ _) q hq)
    exact ih (loadCats acc m cats) hstep
      (fun p hp => h2 p (List.mem_cons_of_mem _ hp))

/-- Claim C9: both `add_expense` and `load_data` preserve the ledger
invariant that every stored record's date has the year-month of its period
key and carries the category it is filed under. -/
theorem ledger_invariant_preserved :
    (∀ (l l' : Ledger) (ds de : String) (a : ℚ) (c : Option String),
      ledgerInv l = true → add_expense l ds de a c = some l' → ledgerInv l' = true) ∧
    (∀ (l f : Ledger), ledgerInv l = true → ledgerInv f = true →
      ledgerInv (load_data l f) = true) := by
  constructor
  · intro l l' ds de a c hl hadd
    rw [ledgerInv_iff] at hl ⊢
    simp only [add_expense] at hadd
    cases hp : parseDate (normalizeDateStr ds) with
    | none => rw [hp] at hadd; cases hadd
    | some d =>
      rw [hp] at hadd
      simp only [Option.some.injEq] at hadd
      subst hadd
      exact extendAt_ok (monthKey d) (c.getD (categorize_description de)) _ l hl
        (by
          intro r hr
          simp only [List.mem_singleton] at hr
          subst hr
          simp [recordOK, hp])
  · intro l f hl hf
    rw [ledgerInv_iff] at hl hf ⊢
    exact load_data_ok f l hl hf

/-- Witness for C9: the ledger produced by one successful `add_expense` on
the empty ledger satisfies the invariant. -/
theorem ledger_invariant_preserved_w :
    ledgerInv [("2024-02", [("交通", [⟨"2024/02/14", "地铁", 5, "交通"⟩])])] = true :=
  ledger_invariant_preserved.1 [] [("2024-02", [("交通", [⟨"2024/02/14", "地铁", 5, "交通"⟩])])]
    "24/02/14" "地铁" 5 none (by decide) (by rfl)

/-- Extending under one category key leaves lookups of other keys alone. -/
theorem lookupCat_extendCats_ne (c c' : String) (rs : List ExpenseRecord) (hne : c' ≠ c) :
    ∀ cats : Cats, lookupCat (extendCats cats c rs) c' = lookupCat cats c' := by
  intro cats
  induction cats with
  | nil => simp [extendCats, lookupCat, Ne.symm hne]
  | cons p rest ih =>
    obtain ⟨c0, lst⟩ := p
    by_cases h0 : c0 = c
    · subst h0
      rw [extendCats, if_pos rfl]
      simp [lookupCat, Ne.symm hne]
    · rw [extendCats, if_neg h0]
      by_cases hc0 : c0 = c'
      · simp [lookupCat, hc0]
      · simp [lookupCat, hc0, ih]

/-- How `extendAt` changes month lookups: only the extended month moves. -/
theorem lookupMonth_extendAt (m p c : String) (rs : List ExpenseRecord) :
    ∀ l : Ledger, lookupMonth (extendAt l m c rs) p
      = if p = m then some (extendCats ((lookupMonth l m).getD []) c rs)
        else lookupMonth l p := by
  intro l
  induction l with
  | nil =>
    by_cases hpm : p = m
    · subst hpm
      simp [extendAt, lookupMonth, extendCats]
    · simp [extendAt, lookupMonth, hpm, Ne.symm hpm]
  | cons e rest ih =>
    obtain ⟨m0, cats⟩ := e
    by_cases h0 : m0 = m
    · subst h0
      rw [extendAt, if_pos rfl]
      by_cases hpm : p = m0
      · subst hpm
        simp [lookupMonth]
      · simp [lookupMonth, Ne.symm hpm, hpm]
    · rw [extendAt, if_neg h0]
      by_cases hp0 : m0 = p
      · subst hp0
        simp [lookupMonth, h0]
      · simp [lookupMonth, hp0, h0, ih]

/-- The summary fold only depends on the per-category totals it reads. -/
theorem summary_foldl_congr (f g : String → ℚ) :
    ∀ (L : List String) (acc : List (String × ℚ) × ℚ),
      (∀ x ∈ L, f x = g x) →
      L.foldl (fun a c => (a.1 ++ [(c, f c)], a.2 + f c)) acc
        = L.foldl (fun a c => (a.1 ++ [(c, g c)], a.2 + g c)) acc := by
  intro L
  induction L with
  | nil => intro acc _; rfl
  | cons x L ih =>
    intro acc h
    simp only [List.foldl_cons]
    rw [h x (List.mem_cons_self _ _)]
    exact ih _ (fun y hy => h y (List.mem_cons_of_mem _ hy))

/-- Records filed under a category outside the declared set contribute to no
monthly summary. -/
theorem gms_extendAt_foreign (l : Ledger) (m c : String) (rs : List ExpenseRecord)
    (hc : c ∉ categoryNames) (p : String) :
    get_monthly_summary (extendAt l m c rs) p = get_monthly_summary l p := by
  have key : ∀ name ∈ categoryNames,
      catTotal ((lookupMonth (extendAt l m c rs) p).getD []) name
        = catTotal ((lookupMonth l p).getD []) name := by
    intro name hname
    have hnc : name ≠ c := fun h => hc (h ▸ hname)
    rw [lookupMonth_extendAt]
    by_cases hpm : p = m
    · rw [if_pos hpm, Option.getD_some]
      unfold catTotal
      rw [lookupCat_extendCats_ne c name rs hnc, hpm]
    · rw [if_neg hpm]
  exact summary_foldl_congr _ _ categoryNames ([], 0) key

/-- Claim C10: a record stored under an undeclared category key contributes
neither to any per-category total nor to the overall total of monthly
summaries or the yearly totals and trend; this covers both extension during
load and `add_expense` with an explicit foreign category. -/
theorem foreign_category_ignored (l : Ledger) (m c : String) (rs : List ExpenseRecord)
    (hc : c ∉ categoryNames) :
    (∀ p, get_monthly_summary (extendAt l m c rs) p = get_monthly_summary l p) ∧
    (∀ year, monthlyTotals (extendAt l m c rs) year = monthlyTotals l year ∧
      yearlyTrend (extendAt l m c rs) year = yearlyTrend l year) ∧
    (∀ (ds de : String) (a : ℚ) (l' : Ledger),
      add_expense l ds de a (some c) = some l' →
      ∀ p, get_monthly_summary l' p = get_monthly_summary l p) := by
  refine ⟨fun p => gms_extendAt_foreign l m c rs hc p, ?_, ?_⟩
  · intro year
    have hmt : monthlyTotals (extendAt l m c rs) year = monthlyTotals l year := by
      unfold monthlyTotals
      have : (fun i => (get_monthly_summary (extendAt l m c rs) (year ++ "-" ++ pad2 (i + 1))).2)
          = fun i => (get_monthly_summary l (year ++ "-" ++ pad2 (i + 1))).2 :=
        funext (fun i => by rw [gms_extendAt_foreign l m c rs hc])
      rw [this]
    refine ⟨hmt, ?_⟩
    unfold yearlyTrend trendRatio
    rw [hmt]
  · intro ds de a l' hadd p
    simp only [add_expense] at hadd
    cases hp : parseDate (normalizeDateStr ds) with
    | none => rw [hp] at hadd; cases hadd
    | some d =>
      rw [hp] at hadd
      simp only [Option.some.injEq] at hadd
      subst hadd
      exact gms_extendAt_foreign l (monthKey d) c _ hc p

/-- Witness for C10: a foreign-category record appended to `L100` leaves the
January 2024 summary unchanged. -/
theorem foreign_category_ignored_w :
    get_monthly_summary (extendAt L100 "2024-01" "外币" [recDec]) "2024-01"
      = get_monthly_summary L100 "2024-01" :=
  (foreign_category_ignored L100 "2024-01" "外币" [recDec] (by decide)).1 "2024-01"

/-- Extending a fresh category key appends it at the end. -/
theorem extendCats_fresh (c : String) (rs : List ExpenseRecord) :
    ∀ cats : Cats, c ∉ cats.map Prod.fst → extendCats cats c rs = cats ++ [(c, rs)] := by
  intro cats
  induction cats with
  | nil => intro _; rfl
  | cons p rest ih =>
    obtain ⟨c0, l0⟩ := p
    intro h
    simp only [List.map_cons, List.mem_cons] at h
    push_neg at h
    rw [extendCats, if_neg (Ne.symm h.1), ih h.2]
    rfl

/-- Extending a fresh month key appends it at the end. -/
theorem extendAt_fresh (m c : String) (rs : List ExpenseRecord) :
    ∀ l : Ledger, m ∉ l.map Prod.fst → extendAt l m c rs = l ++ [(m, [(c, rs)])] := by
  intro l
  induction l with
  | nil => intro _; rfl
  | cons p rest ih =>
    obtain ⟨m0, cs0⟩ := p
    intro h
    simp only [List.map_cons, List.mem_cons] at h
    push_neg at h
    rw [extendAt, if_neg (Ne.symm h.1), ih h.2]
    rfl

/-- Extending the month sitting at the end of the ledger extends it in
place. -/
theorem extendAt_last (m c : String) (rs : List ExpenseRecord) :
    ∀ (l : Ledger) (cs : Cats), m ∉ l.map Prod.fst →
      extendAt (l ++ [(m, cs)]) m c rs = l ++ [(m, extendCats cs c rs)] := by
  intro l
  induction l with
  | nil =>
    intro cs _
    rw [List.nil_append, extendAt, if_pos rfl, List.nil_append]
  | cons p rest ih =>
    obtain ⟨m0, cs0⟩ := p
    intro cs h
    simp only [List.map_cons, List.mem_cons] at h
    push_neg at h
    rw [List.cons_append, extendAt, if_neg (Ne.symm h.1), ih cs h.2, List.cons_append]

/-- The inner load loop over the remaining categories of one month, once the
month key sits at the end of the accumulator. -/
theorem loadCats_step :
    ∀ (rest : Cats) (l : Ledger) (done : Cats) (m : String),
      m ∉ l.map Prod.fst →
      (∀ c' ∈ rest.map Prod.fst, c' ∉ done.map Prod.fst) →
      (rest.map Prod.fst).Nodup →
      loadCats (l ++ [(m, done)]) m rest = l ++ [(m, done ++ rest)] := by
  intro rest
  induction rest with
  | nil => intro l done m _ _ _; simp [loadCats]
  | cons p rest' ih =>
    obtain ⟨c, rs⟩ := p
    intro l done m hm hdisj hnd
    have hfresh : c ∉ done.map Prod.fst := hdisj c (by simp)
    have h1 : ∀ c' ∈ rest'.map Prod.fst, c' ∉ (done ++ [(c, rs)]).map Prod.fst := by
      intro c' hc'
      have hd := hdisj c' (by simp [hc'])
      have hne : c' ≠ c := by
        simp only [List.map_cons, List.nodup_cons] at hnd
        intro he
        exact hnd.1 (he ▸ hc')
      simp [hd, hne]
    have h2 : (rest'.map Prod.fst).Nodup := by
      simp only [List.map_cons, List.nodup_cons] at hnd
      exact hnd.2
    rw [loadCats, extendAt_last m c rs l done hm, extendCats_fresh c rs done hfresh,
      ih l (done ++ [(c, rs)]) m hm h1 h2]
    simp

/-- Loading one month with a nonempty, duplicate-free category map into a
ledger not containing that month appends it unchanged. -/
theorem loadCats_whole (m : String) (cats : Cats) (l : Ledger)
    (hm : m ∉ l.map Prod.fst) (hne : cats ≠ []) (hnd : (cats.map Prod.fst).Nodup) :
    loadCats l m cats = l ++ [(m, cats)] := by
  match cats, hne with
  | (c, rs) :: rest, _ =>
    have h1 : ∀ c' ∈ rest.map Prod.fst, c' ∉ ([(c, rs)] : Cats).map Prod.fst := by
      intro c' hc'
      simp only [List.map_cons, List.nodup_cons] at hnd
      simp only [List.map_cons, List.map_nil, List.mem_singleton]
      intro he
      exact hnd.1 (he ▸ hc')
    have h2 : (rest.map Prod.fst).Nodup := by
      simp only [List.map_cons, List.nodup_cons] at hnd
      exact hnd.2
    rw [loadCats, extendAt_fresh m c rs l hm,
      loadCats_step rest l [(c, rs)] m hm h1 h2]
    rfl

/-- Loading a file whose keys are duplicate-free and disjoint from the
accumulator, and whose months all have nonempty category maps, appends the
file contents unchanged. -/
theorem load_data_append :
    ∀ (f : Ledger) (l : Ledger),
      (∀ m ∈ f.map Prod.fst, m ∉ l.map Prod.fst) →
      (f.map Prod.fst).Nodup →
      (∀ p ∈ f, p.2 ≠ [] ∧ (p.2.map Prod.fst).Nodup) →
      load_data l f = l ++ f := by
  intro f
  induction f with
  | nil => intro l _ _ _; simp [load_data]
  | cons p rest ih =>
    obtain ⟨m, cats⟩ := p
    intro l hdisj hnd hcats
    have hm : m ∉ l.map Prod.fst := hdisj m (by simp)
    have hc := hcats (m, cats) (by simp)
    have hd1 : ∀ m' ∈ rest.map Prod.fst, m' ∉ (l ++ [(m, cats)]).map Prod.fst := by
      intro m' hm'
      have hdl := hdisj m' (by simp [hm'])
      have hne : m' ≠ m := by
        simp only [List.map_cons, List.nodup_cons] at hnd
        intro he
        exact hnd.1 (he ▸ hm')
      simp [hdl, hne]
    have hd2 : (rest.map Prod.fst).Nodup := by
      simp only [List.map_cons, List.nodup_cons] at hnd
      exact hnd.2
    rw [load_data, loadCats_whole m cats l hm hc.1 hc.2,
      ih (l ++ [(m, cats)]) hd1 hd2 (fun p hp => hcats p (List.mem_cons_of_mem _ hp))]
    simp

/-- `save_data` preserves the nested structure exactly. -/
theorem save_data_eq (l : Ledger) : save_data l = l := by
  unfold save_data
  simp

/-- Counterexample to claim C8: the non-empty ledger `Lbad`, whose first
period has an empty category mapping, does not survive the save-load-save
round trip: `load_data` only creates keys while iterating category entries,
so the period 2023-01 is dropped. -/
theorem save_load_roundtrip_cex :
    Lbad ≠ [] ∧ save_data (load_data [] (save_data Lbad)) ≠ save_data Lbad := by
  constructor
  · decide
  · decide

/-- Claim C8 as amended: for a ledger with duplicate-free keys in which every
period holds at least one category entry, saving, loading into an empty
ledger, and saving again reproduces the structure exactly. -/
theorem save_load_roundtrip (L : Ledger)
    (hkeys : (L.map Prod.fst).Nodup)
    (hcats : ∀ p ∈ L, p.2 ≠ [] ∧ (p.2.map Prod.fst).Nodup) :
    save_data (load_data [] (save_data L)) = save_data L := by
  rw [save_data_eq, save_data_eq,
    load_data_append L [] (fun m _ => by simp) hkeys hcats, List.nil_append]

/-- Witness for C8 at the two-month ledger `LRise`. -/
theorem save_load_roundtrip_w :
    save_data (load_data [] (save_data LRise)) = save_data LRise :=
  save_load_roundtrip LRise (by decide) (by decide)

/-- The greedy digit scan of a digit block followed by a non-digit stops
exactly at the block boundary. -/
theorem scan_digit_block (xs : List Char) (c : Char) (ys : List Char)
    (hx : xs.all isDig = true) (hc : isDig c = false) :
    (xs ++ c :: ys).takeWhile isDig = xs ∧ (xs ++ c :: ys).dropWhile isDig = c :: ys := by
  induction xs with
  | nil => simp [List.takeWhile_cons, List.dropWhile_cons, hc]
  | cons a as ih =>
    simp only [List.all_cons, Bool.and_eq_true] at hx
    have h' := ih hx.2
    simp [List.takeWhile_cons, List.dropWhile_cons, hx.1, h'.1, h'.2]

/-- Completeness of `scanNum` on a decomposed input. -/
theorem scanNum_eq_some (lo hi : ℕ) (sep : Char) (hsep : isDig sep = false)
    (xs ys : List Char) (hall : xs.all isDig = true)
    (hlo : lo ≤ xs.length) (hhi : xs.length ≤ hi) :
    scanNum (xs ++ sep :: ys) lo hi sep = some (xs, ys) := by
  have h := scan_digit_block xs sep ys hall hsep
  unfold scanNum
  rw [h.2, h.1]
  simp [hlo, hhi]

/-- Soundness of `scanNum`: success decomposes the input. -/
theorem scanNum_some (cs : List Char) (lo hi : ℕ) (sep : Char) (xs rest : List Char)
    (h : scanNum cs lo hi sep = some (xs, rest)) :
    cs = xs ++ sep :: rest ∧ xs.all isDig = true ∧ lo ≤ xs.length ∧ xs.length ≤ hi := by
  unfold scanNum at h
  cases hd : cs.dropWhile isDig with
  | nil => rw [hd] at h; cases h
  | cons c r =>
    rw [hd] at h
    dsimp only at h
    split_ifs at h with hb
    · simp only [Option.some.injEq, Prod.mk.injEq] at h
      simp only [Bool.and_eq_true, beq_iff_eq, decide_eq_true_eq] at hb
      obtain ⟨⟨hcs, hlo⟩, hhi⟩ := hb
      subst hcs
      refine ⟨?_, ?_, h.1 ▸ hlo, h.1 ▸ hhi⟩
      · rw [← h.1, ← h.2, ← hd, List.takeWhile_append_dropWhile]
      · rw [← h.1]
        exact List.all_eq_true.mpr (fun x hx => List.mem_takeWhile_imp hx)

/-- No out-of-range position is a valid split. -/
theorem okSplit_oob (body : List Char) (i : ℕ) (h : body.length ≤ i) :
    okSplit body i = false := by
  unfold okSplit
  rw [List.getD_eq_default body ' ' h]
  simp

/-- The greedy split succeeds exactly when some valid split position
exists. -/
theorem splitIdx_isSome (body : List Char) :
    (splitIdx body).isSome = true ↔ ∃ i, okSplit body i = true := by
  unfold splitIdx
  rw [List.getLast?_isSome]
  constructor
  · intro hne
    obtain ⟨i, hi⟩ := List.exists_mem_of_ne_nil _ hne
    exact ⟨i, (List.mem_filter.mp hi).2⟩
  · rintro ⟨i, hi⟩
    have hlt : i < body.length := by
      by_contra hge
      push_neg at hge
      rw [okSplit_oob body i hge] at hi
      cases hi
    intro hnil
    have hmem : i ∈ (List.range body.length).filter (okSplit body) :=
      List.mem_filter.mpr ⟨List.mem_range.mpr hlt, hi⟩
    rw [hnil] at hmem
    cases hmem

/-- Claim C6 as amended: `parse_input` succeeds exactly on lines beginning
with `<date>，<description>-<amount>` — the digit-bounded date, a non-empty
newline-free description up to the last `-` followed by a digit, and a
numeric token after it — with trailing text after the amount permitted,
since `re.match` anchors only the start of the line. -/
theorem parse_relaxed_exact (s : String) :
    (parse_input s).isSome = true ↔ RelaxedFormat s := by
  constructor
  · intro h
    unfold parse_input at h
    cases h1 : scanNum s.data 2 4 '/' with
    | none => rw [h1] at h; cases h
    | some yp =>
      obtain ⟨y, r1⟩ := yp
      rw [h1] at h
      simp only [Option.some_bind] at h
      cases h2 : scanNum r1 1 2 '/' with
      | none => rw [h2] at h; cases h
      | some mp =>
        obtain ⟨mo, r2⟩ := mp
        rw [h2] at h
        simp only [Option.some_bind] at h
        cases h3 : scanNum r2 1 2 '，' with
        | none => rw [h3] at h; cases h
        | some dp =>
          obtain ⟨d, body⟩ := dp
          rw [h3] at h
          simp only [Option.some_bind] at h
          obtain ⟨e1, a1, lo1, hi1⟩ := scanNum_some _ _ _ _ _ _ h1
          obtain ⟨e2, a2, lo2, hi2⟩ := scanNum_some _ _ _ _ _ _ h2
          obtain ⟨e3, a3, lo3, hi3⟩ := scanNum_some _ _ _ _ _ _ h3
          have hsome : (splitIdx body).isSome = true := by
            cases h4 : splitIdx body with
            | none => rw [h4] at h; cases h
            | some i => rfl
          obtain ⟨i, hok⟩ := (splitIdx_isSome body).mp hsome
          simp only [okSplit, Bool.and_eq_true, decide_eq_true_eq, beq_iff_eq,
            List.all_eq_true, bne_iff_ne] at hok
          exact ⟨y, mo, d, body, i, by rw [e1, e2, e3], a1, lo1, hi1, a2, lo2, hi2,
            a3, lo3, hi3, hok.1.1.1, hok.1.1.2, hok.1.2, hok.2⟩
  · rintro ⟨y, mo, d, body, i, hs, ay, ly1, ly2, amo, lmo1, lmo2, ad, ld1, ld2,
      hi1, hdash, hdig, hnl⟩
    unfold parse_input
    rw [hs, scanNum_eq_some 2 4 '/' (by decide) y (mo ++ '/' :: (d ++ '，' :: body)) ay ly1 ly2]
    simp only [Option.some_bind]
    rw [scanNum_eq_some 1 2 '/' (by decide) mo (d ++ '，' :: body) amo lmo1 lmo2]
    simp only [Option.some_bind]
    rw [scanNum_eq_some 1 2 '，' (by decide) d body ad ld1 ld2]
    simp only [Option.some_bind]
    have hsome : (splitIdx body).isSome = true := by
      refine (splitIdx_isSome body).mpr ⟨i, ?_⟩
      simp only [okSplit, Bool.and_eq_true, decide_eq_true_eq, beq_iff_eq,
        List.all_eq_true, bne_iff_ne]
      exact ⟨⟨⟨hi1, hdash⟩, hdig⟩, hnl⟩
    cases h4 : splitIdx body with
    | none => rw [h4] at hsome; cases hsome
    | some j => rfl

/-- Witness for the amended C6: the counterexample line with trailing text
after the amount token does satisfy the relaxed format. -/
theorem parse_relaxed_exact_w : RelaxedFormat "2024/1/1，a-5x" :=
  (parse_relaxed_exact "2024/1/1，a-5x").mp (by rfl)

end ET
